import Mathlib

/-!
Verification of selection, aggregation and sampling algorithms of the
braingraph-pipeline repository, shallowly embedded in Lean 4.

Floating-point scores are modelled as rationals; Python dictionaries are
modelled as association lists that preserve insertion order.
-/

namespace Braingraph

/-! ### Pareto front (`scripts/pareto_view.py`, `pareto_front`) -/

/-- One candidate row with its three objectives, as computed in
`pareto_front`: `cost = tract_count`, `dev = density deviation`,
`score = score column`.  (Objective vector is `(cost, dev, -score)`,
all minimised.) -/
structure Point where
  cost : ℚ
  dev : ℚ
  score : ℚ
deriving DecidableEq, Repr

/-- `dominatesB a b` is the numpy test
`np.all(objs_a <= objs_b) && np.any(objs_a < objs_b)` on the objective
vectors `(cost, dev, -score)`. -/
def dominatesB (a b : Point) : Bool :=
  (a.cost ≤ b.cost && a.dev ≤ b.dev && b.score ≤ a.score) &&
  (a.cost < b.cost || a.dev < b.dev || b.score < a.score)

/-- `pareto_front` keeps row `i` iff no row `j ≠ i` dominates it
(the source marks `dominates[i] = False` before testing, i.e. the row
itself is excluded by index). -/
def pareto_front (pts : List Point) : List Point :=
  ((pts.enum).filter (fun ip =>
    !((pts.enum).any (fun jq => jq.1 ≠ ip.1 && dominatesB jq.2 ip.2)))).map Prod.snd

theorem dominatesB_irrefl (p : Point) : dominatesB p p = false := by
  simp [dominatesB]

theorem mem_pareto_front_iff (pts : List Point) (p : Point) :
    p ∈ pareto_front pts ↔ p ∈ pts ∧ ∀ q ∈ pts, dominatesB q p = false := by
  constructor
  · intro hp
    simp only [pareto_front, List.mem_map, List.mem_filter] at hp
    obtain ⟨⟨i, p'⟩, ⟨hmem, hnone⟩, hsnd⟩ := hp
    subst hsnd
    refine ⟨List.snd_mem_of_mem_enum hmem, ?_⟩
    intro q hq
    obtain ⟨⟨j, hjlt⟩, rfl⟩ := List.mem_iff_get.1 hq
    have hj : pts[j]? = some (pts.get ⟨j, hjlt⟩) :=
      List.getElem?_eq_some.2 ⟨hjlt, rfl⟩
    by_cases hji : j = i
    · subst hji
      have hpq : pts.get ⟨j, hjlt⟩ = p' := by
        have hp' : pts[j]? = some p' := List.mk_mem_enum_iff_getElem?.1 hmem
        rw [hp'] at hj
        exact (Option.some_inj.1 hj).symm
      rw [hpq]
      exact dominatesB_irrefl p'
    · by_contra hdom
      simp only [Bool.not_eq_false] at hdom
      have hany : (pts.enum).any (fun jq => jq.1 ≠ i && dominatesB jq.2 p') = true := by
        refine List.any_eq_true.2 ⟨(j, pts.get ⟨j, hjlt⟩), List.mk_mem_enum_iff_getElem?.2 hj, ?_⟩
        simp only [Bool.and_eq_true, decide_eq_true_eq]
        exact ⟨hji, hdom⟩
      simp only [Bool.not_eq_true'] at hnone
      rw [hnone] at hany
      exact Bool.false_ne_true hany
  · rintro ⟨hp, hnd⟩
    obtain ⟨⟨i, hi⟩, rfl⟩ := List.mem_iff_get.1 hp
    simp only [pareto_front, List.mem_map, List.mem_filter]
    refine ⟨(i, pts.get ⟨i, hi⟩), ⟨List.mk_mem_enum_iff_getElem?.2 ?_, ?_⟩, rfl⟩
    · exact List.getElem?_eq_some.2 ⟨hi, rfl⟩
    · simp only [Bool.not_eq_true']
      refine List.any_eq_false.2 ?_
      rintro ⟨j, q⟩ hjq
      have hq : q ∈ pts := List.snd_mem_of_mem_enum hjq
      simp only [Bool.and_eq_true, decide_eq_true_eq, not_and, Bool.not_eq_true]
      intro _
      exact hnd q hq

/-- C3: `pareto_front` returns exactly the non-dominated subset of its
input under the dominance rule "A dominates B iff A ≤ B in every
objective (cost, deviation, negated score) and strictly < in at least
one"; no two points of the front dominate one another; and on
P1(10, 0, 0.9), P2(5, 0, 0.9), P3(5, 0.1, 0.5) the front is exactly
{P2}. -/
theorem pareto_front_correct :
    (∀ a b : Point, dominatesB a b = true ↔
      ((a.cost ≤ b.cost ∧ a.dev ≤ b.dev ∧ b.score ≤ a.score) ∧
       (a.cost < b.cost ∨ a.dev < b.dev ∨ b.score < a.score))) ∧
    (∀ (pts : List Point) (p : Point),
      p ∈ pareto_front pts ↔ p ∈ pts ∧ ∀ q ∈ pts, dominatesB q p = false) ∧
    (∀ (pts : List Point) (p q : Point),
      p ∈ pareto_front pts → q ∈ pareto_front pts → dominatesB p q = false) ∧
    pareto_front [⟨10, 0, 9/10⟩, ⟨5, 0, 9/10⟩, ⟨5, 1/10, 1/2⟩] = [⟨5, 0, 9/10⟩] := by
  refine ⟨?_, mem_pareto_front_iff, ?_,
    by norm_num [pareto_front, dominatesB, List.enum, List.enumFrom, List.filter, List.any]⟩
  · intro a b
    simp [dominatesB, and_assoc, or_assoc]
  · intro pts p q hp hq
    exact ((mem_pareto_front_iff pts q).1 hq).2 p ((mem_pareto_front_iff pts p).1 hp).1

/-- Witness instantiating `pareto_front_correct` on concrete points. -/
theorem pareto_front_correct_witness :
    dominatesB ⟨5, 0, 1⟩ ⟨5, 0, 1⟩ = false :=
  pareto_front_correct.2.2.1 [⟨5, 0, 1⟩] ⟨5, 0, 1⟩ ⟨5, 0, 1⟩
    (by simp [pareto_front, dominatesB, List.enum, List.enumFrom])
    (by simp [pareto_front, dominatesB, List.enum, List.enumFrom])

/-! ### Wave best-candidate selection
(`scripts/cross_validation_bootstrap_optimizer.py`, `run_wave_pipeline`)

The selection loop over `optimized_csvs` keeps `best`, `best_score`
(initially `-1.0`) and `best_tc` (initially `None`), and replaces the
incumbent whenever
`sc > best_score + eps or (abs(sc - best_score) <= eps and
 (best_tc is None or (tc != -1 and tc < best_tc)))` with `eps = 1e-4`.
In parallel mode the list is in completion order (`as_completed`),
sequentially it is in sampling order. -/

/-- A completed combination evaluation: config id, selection score and
tract count (`-1` when it could not be parsed). -/
structure Combo where
  id : ℕ
  score : ℚ
  tc : ℤ
deriving DecidableEq, Repr

/-- `eps` of the selection loop. -/
def wave_eps : ℚ := 1/10000

/-- Replacement test of the selection loop. -/
def selCond (bs : ℚ) (btc : Option ℤ) (c : Combo) : Bool :=
  (bs + wave_eps < c.score) ||
  (|c.score - bs| ≤ wave_eps &&
    (match btc with
     | none => true
     | some t => c.tc ≠ -1 && c.tc < t))

/-- One step of the selection loop. -/
def selStep (st : Option Combo × ℚ × Option ℤ) (c : Combo) :
    Option Combo × ℚ × Option ℤ :=
  if selCond st.2.1 st.2.2 c then (some c, c.score, some c.tc) else st

/-- The whole selection loop: fold over the completed results in
processing order, starting from `best = None`, `best_score = -1.0`,
`best_tc = None`. -/
def wave_select_best (rs : List Combo) : Option Combo :=
  (rs.foldl selStep (none, -1, none)).1

/-- Results forming an epsilon chain: scores 1, 1.00008, 1.00016. -/
def waveCA : Combo := ⟨1, 1, 1⟩

def waveCB : Combo := ⟨2, 1 + 8/100000, 5⟩

def waveCC : Combo := ⟨3, 1 + 16/100000, 10⟩

/-- C1 counterexample: the same set of completed results, processed in
two different orders, yields two different best candidates, so the
selection is *not* insensitive to completion order (and in the first
order the candidate with the highest score, `waveCC`, is not selected
in the second). -/
theorem wave_select_best_not_order_independent :
    wave_select_best [waveCA, waveCB, waveCC] = some waveCC ∧
    wave_select_best [waveCB, waveCC, waveCA] = some waveCA ∧
    [waveCA, waveCB, waveCC].Perm [waveCB, waveCC, waveCA] ∧
    waveCA ≠ waveCC := by
  refine ⟨?_, ?_, ?_, by simp [waveCA, waveCC]⟩
  · norm_num [wave_select_best, selStep, selCond, wave_eps, waveCA, waveCB, waveCC, abs_le]
  · norm_num [wave_select_best, selStep, selCond, wave_eps, waveCA, waveCB, waveCC, abs_le]
  · exact (List.perm_append_singleton waveCA [waveCB, waveCC]).symm

/-- C1 amended: for two completed results the coded rule does behave as
the spec describes, in either processing order: a score lead of more
than `eps` wins; a score tie within `eps` is broken towards the lower
valid tract count; on equal tract count the first processed wins.
(With three or more results the `eps` tie is not transitive and the
outcome can depend on processing order, see the counterexample.) -/
theorem selStep_pos (st : Option Combo × ℚ × Option ℤ) (c : Combo)
    (h : selCond st.2.1 st.2.2 c = true) :
    selStep st c = (some c, c.score, some c.tc) := by
  simp [selStep, h]

theorem selStep_neg (st : Option Combo × ℚ × Option ℤ) (c : Combo)
    (h : selCond st.2.1 st.2.2 c = false) : selStep st c = st := by
  simp [selStep, h]

theorem selCond_of_jump (bs : ℚ) (btc : Option ℤ) (c : Combo)
    (h : bs + wave_eps < c.score) : selCond bs btc c = true := by
  simp [selCond, h]

theorem selCond_of_tie (bs : ℚ) (t : ℤ) (c : Combo)
    (h1 : |c.score - bs| ≤ wave_eps) (h2 : c.tc ≠ -1) (h3 : c.tc < t) :
    selCond bs (some t) c = true := by
  simp [selCond, h1, h2, h3]

theorem selCond_false_of (bs : ℚ) (t : ℤ) (c : Combo)
    (h1 : ¬ bs + wave_eps < c.score)
    (h2 : ¬ |c.score - bs| ≤ wave_eps ∨ ¬ c.tc < t) :
    selCond bs (some t) c = false := by
  rcases h2 with h2 | h2 <;> simp [selCond, h1, h2]

theorem wave_select_best_pair (a b : Combo)
    (ha : -1 + wave_eps < a.score) (hb : -1 + wave_eps < b.score) :
    (b.score + wave_eps < a.score →
      wave_select_best [a, b] = some a ∧ wave_select_best [b, a] = some a) ∧
    (|a.score - b.score| ≤ wave_eps → a.tc ≠ -1 → b.tc ≠ -1 →
      ((b.tc < a.tc →
        wave_select_best [a, b] = some b ∧ wave_select_best [b, a] = some b) ∧
       (a.tc = b.tc →
        wave_select_best [a, b] = some a ∧ wave_select_best [b, a] = some b))) := by
  have hstep : ∀ c : Combo, -1 + wave_eps < c.score →
      List.foldl selStep ((none, -1, none) : Option Combo × ℚ × Option ℤ) [c] =
        (some c, c.score, some c.tc) := by
    intro c hc
    rw [List.foldl_cons, selStep_pos (none, -1, none) c (selCond_of_jump (-1) none c hc),
      List.foldl_nil]
  have hfold : ∀ c d : Combo, -1 + wave_eps < c.score →
      wave_select_best [c, d] =
        (selStep ((some c, c.score, some c.tc) : Option Combo × ℚ × Option ℤ) d).1 := by
    intro c d hc
    rw [wave_select_best, List.foldl_cons,
      selStep_pos (none, -1, none) c (selCond_of_jump (-1) none c hc),
      List.foldl_cons, List.foldl_nil]
  have heps : (0:ℚ) < wave_eps := by norm_num [wave_eps]
  have habs1 : ∀ x y : ℚ, |x - y| ≤ wave_eps → x ≤ y + wave_eps := by
    intro x y h
    have := (abs_sub_le_iff.1 h).1
    linarith
  constructor
  · intro hlead
    refine ⟨?_, ?_⟩
    · rw [hfold a b ha, selStep_neg (some a, a.score, some a.tc) b]
      refine selCond_false_of a.score a.tc b (by simp only [not_lt]; linarith) (Or.inl ?_)
      intro hcon
      have := habs1 a.score b.score (by rwa [abs_sub_comm] at hcon)
      linarith
    · rw [hfold b a hb, selStep_pos (some b, b.score, some b.tc) a
        (selCond_of_jump b.score (some b.tc) a hlead)]
  · intro htie hta htb
    have htie' : |b.score - a.score| ≤ wave_eps := by
      rw [abs_sub_comm]
      exact htie
    have hba : ¬ b.score + wave_eps < a.score := by
      simp only [not_lt]
      have := habs1 a.score b.score htie
      linarith
    have hab : ¬ a.score + wave_eps < b.score := by
      simp only [not_lt]
      have := habs1 b.score a.score htie'
      linarith
    refine ⟨?_, ?_⟩
    · intro htc
      refine ⟨?_, ?_⟩
      · rw [hfold a b ha, selStep_pos (some a, a.score, some a.tc) b
          (selCond_of_tie a.score a.tc b htie' htb htc)]
      · rw [hfold b a hb, selStep_neg (some b, b.score, some b.tc) a
          (selCond_false_of b.score b.tc a hba (Or.inr (by omega)))]
    · intro heq
      refine ⟨?_, ?_⟩
      · rw [hfold a b ha, selStep_neg (some a, a.score, some a.tc) b
          (selCond_false_of a.score a.tc b hab (Or.inr (by omega)))]
      · rw [hfold b a hb, selStep_neg (some b, b.score, some b.tc) a
          (selCond_false_of b.score b.tc a hba (Or.inr (by omega)))]

/-- Witness instantiating `wave_select_best_pair` with a concrete tied
pair: equal scores, tract counts 3 < 7, so the cheaper combination wins
in both processing orders. -/
theorem wave_select_best_pair_witness :
    wave_select_best [⟨1, 2, 7⟩, ⟨2, 2, 3⟩] = some ⟨2, 2, 3⟩ ∧
    wave_select_best [⟨2, 2, 3⟩, ⟨1, 2, 7⟩] = some ⟨2, 2, 3⟩ :=
  ((wave_select_best_pair ⟨1, 2, 7⟩ ⟨2, 2, 3⟩
      (by norm_num [wave_eps]) (by norm_num [wave_eps])).2
    (by norm_num [wave_eps]) (by norm_num) (by norm_num)).1 (by norm_num)

/-! ### Cross-wave aggregation
(`scripts/utils/aggregate_wave_candidates.py`, `aggregate_top_candidates`)

Per wave, each candidate contributes its score to the dict entry keyed by
`(atlas, connectivity_metric, tract_count)` (the tract count comes from
the wave's selected parameters).  Entries keep Python-dict insertion
order.  The ranking is `ranked.sort(key=lambda x: x["average_score"],
reverse=True)`, i.e. a *stable* sort by average score descending, with
no further tie-break.  Python's stable sort is modelled by a stable
insertion sort: both produce the unique permutation that is sorted by
the key and keeps equal-key elements in encounter order. -/

/-- One candidate row inside a wave's `optimal_combinations.json`. -/
structure WaveCand where
  atlas : String
  metric : String
  score : ℚ
deriving DecidableEq, Repr

/-- One wave: its extracted `tract_count` (possibly absent) and its
candidate list. -/
structure WaveInput where
  tract : Option ℤ
  cands : List WaveCand
deriving DecidableEq, Repr

/-- Candidate identity, the grouping key `(atlas, metric, tract_count)`. -/
abbrev CandKey := String × String × Option ℤ

/-- All `(key, score)` records in wave order, then candidate order. -/
def waveEntries (ws : List WaveInput) : List (CandKey × ℚ) :=
  ws.flatMap (fun w => w.cands.map (fun c => ((c.atlas, c.metric, w.tract), c.score)))

/-- `scores.setdefault(key, []).append(score)`: append to the existing
entry, else add a new entry at the end (Python dict insertion order). -/
def addScore : List (CandKey × List ℚ) → CandKey × ℚ → List (CandKey × List ℚ)
  | [], e => [(e.1, [e.2])]
  | kv :: rest, e =>
    if kv.1 = e.1 then (kv.1, kv.2 ++ [e.2]) :: rest else kv :: addScore rest e

/-- The `scores` dict after the two nested loops. -/
def collectScores (ws : List WaveInput) : List (CandKey × List ℚ) :=
  (waveEntries ws).foldl addScore []

/-- One entry of the `ranked` list (only the fields the claims are
about; the source calls the count `waves_considered`). -/
structure RankedCand where
  atlas : String
  metric : String
  tract : Option ℤ
  average_score : ℚ
  waves_considered : ℕ
deriving DecidableEq, Repr

/-- Build the unsorted `ranked` list: `avg = sum(vals)/len(vals)`,
`waves_considered = len(vals)`. -/
def rankedUnsorted (ws : List WaveInput) : List RankedCand :=
  (collectScores ws).map (fun kv =>
    ⟨kv.1.1, kv.1.2.1, kv.1.2.2, kv.2.sum / kv.2.length, kv.2.length⟩)

/-- Stable descending insertion (into an already processed prefix). -/
def insRanked : List RankedCand → RankedCand → List RankedCand
  | [], e => [e]
  | x :: xs, e =>
    if x.average_score < e.average_score then e :: x :: xs else x :: insRanked xs e

/-- Stable sort by `average_score` descending
(`ranked.sort(key=..., reverse=True)`). -/
def sortRankedDesc (l : List RankedCand) : List RankedCand :=
  l.foldl insRanked []

/-- `aggregate_top_candidates`: group scores by candidate identity,
average, and stably sort by average score descending. -/
def aggregate_top_candidates (ws : List WaveInput) : List RankedCand :=
  sortRankedDesc (rankedUnsorted ws)

/-- Scores recorded for key `k`, in recording order. -/
def recordedScores (ws : List WaveInput) (k : CandKey) : List ℚ :=
  ((waveEntries ws).filter (fun e => decide (e.1 = k))).map (·.2)

theorem addScore_keys_nodup (acc : List (CandKey × List ℚ)) (e : CandKey × ℚ)
    (h : (acc.map (·.1)).Nodup) : ((addScore acc e).map (·.1)).Nodup := by
  induction acc with
  | nil => simp [addScore]
  | cons kv rest ih =>
    simp only [List.map_cons, List.nodup_cons] at h
    by_cases hk : kv.1 = e.1
    · simp only [addScore, if_pos hk, List.map_cons, List.nodup_cons]
      exact h
    · simp only [addScore, if_neg hk, List.map_cons, List.nodup_cons]
      refine ⟨?_, ih h.2⟩
      intro hmem
      -- kv.1 occurs among the keys of `addScore rest e`
      have hkeys : ∀ rest : List (CandKey × List ℚ),
          (addScore rest e).map (·.1) = rest.map (·.1) ++
            (if e.1 ∈ rest.map (·.1) then [] else [e.1]) := by
        intro rest
        induction rest with
        | nil => simp [addScore]
        | cons kv' rest' ih' =>
          by_cases hk' : kv'.1 = e.1
          · simp [addScore, if_pos hk', hk']
          · simp only [addScore, if_neg hk', List.map_cons, ih', List.mem_cons]
            have hne : ¬ e.1 = kv'.1 := fun hh => hk' hh.symm
            simp only [hne, false_or, List.cons_append]
      rw [hkeys rest] at hmem
      rcases List.mem_append.1 hmem with hmem | hmem
      · exact h.1 hmem
      · split at hmem
        · simp at hmem
        · simp only [List.mem_singleton] at hmem
          exact hk hmem

/-- Scores stored under key `k` in the accumulator (unique keys make the
join pick up the single matching entry). -/
def valsOf (acc : List (CandKey × List ℚ)) (k : CandKey) : List ℚ :=
  ((acc.filter (fun kv => decide (kv.1 = k))).map (·.2)).flatten

theorem valsOf_eq_nil_of_not_mem (acc : List (CandKey × List ℚ)) (k : CandKey)
    (h : k ∉ acc.map (·.1)) : valsOf acc k = [] := by
  induction acc with
  | nil => simp [valsOf]
  | cons kv rest ih =>
    simp only [List.map_cons, List.mem_cons, not_or] at h
    have hne : ¬ kv.1 = k := fun hh => h.1 hh.symm
    simp only [valsOf, List.filter_cons, decide_eq_true_eq] at *
    rw [if_neg (by simpa using hne)]
    exact ih h.2

theorem valsOf_addScore (acc : List (CandKey × List ℚ)) (e : CandKey × ℚ)
    (k : CandKey) (h : (acc.map (·.1)).Nodup) :
    valsOf (addScore acc e) k =
      valsOf acc k ++ (if e.1 = k then [e.2] else []) := by
  induction acc with
  | nil =>
    by_cases hk : e.1 = k <;> simp [addScore, valsOf, List.filter_cons, hk]
  | cons kv rest ih =>
    simp only [List.map_cons, List.nodup_cons] at h
    by_cases hke : kv.1 = e.1
    · simp only [addScore, if_pos hke]
      by_cases hk : kv.1 = k
      · have hek : e.1 = k := hke ▸ hk
        have hrest : valsOf rest k = [] :=
          valsOf_eq_nil_of_not_mem rest k (hk ▸ h.1)
        simp only [valsOf] at hrest ⊢
        simp [List.filter_cons, hk, hek, hrest]
      · have hek : ¬ e.1 = k := fun hh => hk (hke.trans hh)
        simp [valsOf, List.filter_cons, hk, hek]
    · simp only [addScore, if_neg hke]
      by_cases hk : kv.1 = k
      · simp only [valsOf, List.filter_cons, decide_eq_true_eq, if_pos hk,
          List.map_cons, List.flatten_cons]
        have hih := ih h.2
        simp only [valsOf] at hih
        rw [hih, List.append_assoc]
      · simp only [valsOf, List.filter_cons, decide_eq_true_eq, if_neg hk]
        exact ih h.2

theorem valsOf_foldl (es : List (CandKey × ℚ)) (acc : List (CandKey × List ℚ))
    (k : CandKey) (h : (acc.map (·.1)).Nodup) :
    valsOf (es.foldl addScore acc) k =
      valsOf acc k ++ ((es.filter (fun e => decide (e.1 = k))).map (·.2)) := by
  induction es generalizing acc with
  | nil => simp
  | cons e es ih =>
    rw [List.foldl_cons, ih (addScore acc e) (addScore_keys_nodup acc e h),
      valsOf_addScore acc e k h]
    by_cases hk : e.1 = k
    · simp [List.filter_cons, hk]
    · simp [List.filter_cons, hk]

theorem collectScores_keys_nodup (ws : List WaveInput) :
    ((collectScores ws).map (·.1)).Nodup := by
  rw [collectScores]
  generalize waveEntries ws = es
  have hgen : ∀ (es : List (CandKey × ℚ)) (acc : List (CandKey × List ℚ)),
      (acc.map (·.1)).Nodup → ((es.foldl addScore acc).map (·.1)).Nodup := by
    intro es
    induction es with
    | nil => intro acc h; simpa using h
    | cons e es ih =>
      intro acc h
      rw [List.foldl_cons]
      exact ih (addScore acc e) (addScore_keys_nodup acc e h)
  exact hgen es [] (by simp)

theorem valsOf_of_mem (acc : List (CandKey × List ℚ)) (kv : CandKey × List ℚ)
    (h : (acc.map (·.1)).Nodup) (hm : kv ∈ acc) : valsOf acc kv.1 = kv.2 := by
  induction acc with
  | nil => simp at hm
  | cons kv' rest ih =>
    simp only [List.map_cons, List.nodup_cons] at h
    rcases List.mem_cons.1 hm with rfl | hm
    · have hrest : valsOf rest kv.1 = [] := valsOf_eq_nil_of_not_mem rest kv.1 h.1
      simp only [valsOf] at hrest ⊢
      simp [List.filter_cons, hrest]
    · have hne : ¬ kv'.1 = kv.1 := by
        intro hh
        exact h.1 (hh ▸ List.mem_map.2 ⟨kv, hm, rfl⟩)
      simp only [valsOf, List.filter_cons, decide_eq_true_eq, if_neg hne]
      exact ih h.2 hm

/-- For every entry of the `scores` dict, the stored list is exactly the
recorded scores for that key, in recording order. -/
theorem collectScores_vals (ws : List WaveInput) (kv : CandKey × List ℚ)
    (hm : kv ∈ collectScores ws) : kv.2 = recordedScores ws kv.1 := by
  have h1 : valsOf (collectScores ws) kv.1 = kv.2 :=
    valsOf_of_mem _ kv (collectScores_keys_nodup ws) hm
  have h2 : valsOf (collectScores ws) kv.1 = recordedScores ws kv.1 := by
    rw [collectScores, valsOf_foldl _ [] _ (by simp)]
    simp [valsOf, recordedScores]
  rw [← h1, h2]

theorem insRanked_perm (acc : List RankedCand) (e : RankedCand) :
    (insRanked acc e).Perm (e :: acc) := by
  induction acc with
  | nil => simp [insRanked]
  | cons x xs ih =>
    by_cases h : x.average_score < e.average_score
    · simp [insRanked, h]
    · simp only [insRanked, if_neg h]
      exact (ih.cons x).trans (List.Perm.swap e x xs)

theorem sortRankedDesc_perm (l : List RankedCand) : (sortRankedDesc l).Perm l := by
  have hgen : ∀ (l acc : List RankedCand), (l.foldl insRanked acc).Perm (acc ++ l) := by
    intro l
    induction l with
    | nil => simp
    | cons e l ih =>
      intro acc
      rw [List.foldl_cons]
      refine (ih (insRanked acc e)).trans ?_
      have h1 : (insRanked acc e ++ l).Perm ((e :: acc) ++ l) :=
        (insRanked_perm acc e).append_right l
      exact h1.trans (by simpa using (@List.perm_middle _ e acc l).symm)
  simpa using hgen l []

theorem insRanked_sorted (acc : List RankedCand) (e : RankedCand)
    (h : List.Sorted (fun x y => y.average_score ≤ x.average_score) acc) :
    List.Sorted (fun x y => y.average_score ≤ x.average_score) (insRanked acc e) := by
  induction acc with
  | nil => simp [insRanked]
  | cons x xs ih =>
    rcases List.sorted_cons.1 h with ⟨hx, hxs⟩
    by_cases hcmp : x.average_score < e.average_score
    · simp only [insRanked, if_pos hcmp]
      refine List.sorted_cons.2 ⟨?_, h⟩
      intro b hb
      rcases List.mem_cons.1 hb with rfl | hb
      · exact le_of_lt hcmp
      · exact le_trans (hx b hb) (le_of_lt hcmp)
    · simp only [insRanked, if_neg hcmp]
      refine List.sorted_cons.2 ⟨?_, ih hxs⟩
      intro b hb
      have hb' : b ∈ e :: xs := (insRanked_perm xs e).mem_iff.1 hb
      rcases List.mem_cons.1 hb' with rfl | hb'
      · exact not_lt.1 hcmp
      · exact hx b hb'

theorem sortRankedDesc_sorted (l : List RankedCand) :
    List.Sorted (fun x y => y.average_score ≤ x.average_score) (sortRankedDesc l) := by
  have hgen : ∀ (l acc : List RankedCand),
      List.Sorted (fun x y => y.average_score ≤ x.average_score) acc →
      List.Sorted (fun x y => y.average_score ≤ x.average_score) (l.foldl insRanked acc) := by
    intro l
    induction l with
    | nil => intro acc h; simpa using h
    | cons e l ih =>
      intro acc h
      rw [List.foldl_cons]
      exact ih (insRanked acc e) (insRanked_sorted acc e h)
  exact hgen l [] (by simp)

theorem filter_insRanked (acc : List RankedCand) (e : RankedCand) (q : ℚ)
    (h : List.Sorted (fun x y => y.average_score ≤ x.average_score) acc) :
    (insRanked acc e).filter (fun r => decide (r.average_score = q)) =
      if e.average_score = q then
        acc.filter (fun r => decide (r.average_score = q)) ++ [e]
      else acc.filter (fun r => decide (r.average_score = q)) := by
  induction acc with
  | nil =>
    by_cases hq : e.average_score = q <;> simp [insRanked, List.filter_cons, hq]
  | cons x xs ih =>
    rcases List.sorted_cons.1 h with ⟨hx, hxs⟩
    by_cases hcmp : x.average_score < e.average_score
    · simp only [insRanked, if_pos hcmp]
      by_cases hq : e.average_score = q
      · -- every element of x :: xs has score ≤ x.score < e.score = q
        have hnone : (x :: xs).filter (fun r => decide (r.average_score = q)) = [] := by
          refine List.filter_eq_nil_iff.2 ?_
          intro b hb
          simp only [decide_eq_true_eq]
          intro hbq
          rcases List.mem_cons.1 hb with rfl | hb
          · exact absurd (hbq.trans hq.symm) (ne_of_lt hcmp)
          · exact absurd ((hx b hb).trans_lt hcmp) (by rw [hbq, hq]; exact lt_irrefl q)
        rw [List.filter_cons_of_pos (by simpa using hq), hnone, if_pos hq]
        simp
      · rw [List.filter_cons_of_neg (by simpa using hq), if_neg hq]
    · simp only [insRanked, if_neg hcmp]
      by_cases hxq : x.average_score = q
      · rw [List.filter_cons_of_pos (by simpa using hxq),
          List.filter_cons_of_pos (by simpa using hxq), ih hxs]
        by_cases hq : e.average_score = q <;> simp [hq]
      · rw [List.filter_cons_of_neg (by simpa using hxq),
          List.filter_cons_of_neg (by simpa using hxq), ih hxs]

theorem filter_sortRankedDesc (l : List RankedCand) (q : ℚ) :
    (sortRankedDesc l).filter (fun r => decide (r.average_score = q)) =
      l.filter (fun r => decide (r.average_score = q)) := by
  have hgen : ∀ (l acc : List RankedCand),
      List.Sorted (fun x y => y.average_score ≤ x.average_score) acc →
      (l.foldl insRanked acc).filter (fun r => decide (r.average_score = q)) =
        acc.filter (fun r => decide (r.average_score = q)) ++
          l.filter (fun r => decide (r.average_score = q)) := by
    intro l
    induction l with
    | nil => intro acc h; simp
    | cons e l ih =>
      intro acc h
      rw [List.foldl_cons, ih (insRanked acc e) (insRanked_sorted acc e h),
        filter_insRanked acc e q h]
      by_cases hq : e.average_score = q
      · rw [if_pos hq, List.filter_cons_of_pos (by simpa using hq), List.append_assoc]
        simp
      · rw [if_neg hq, List.filter_cons_of_neg (by simpa using hq)]
  simpa using hgen l [] (by simp)

theorem cands_filter_le_one (cands : List WaveCand) (t : Option ℤ) (k : CandKey)
    (h : (cands.map (fun c => (c.atlas, c.metric))).Nodup) :
    ((cands.map (fun c => ((c.atlas, c.metric, t), c.score))).filter
        (fun e => decide (e.1 = k))).length ≤ 1 := by
  induction cands with
  | nil => simp
  | cons c cs ih =>
    simp only [List.map_cons, List.nodup_cons] at h
    simp only [List.map_cons, List.filter_cons]
    by_cases hk : ((c.atlas, c.metric, t) : CandKey) = k
    · rw [if_pos (by simpa using hk)]
      have hnil : (cs.map (fun c => ((c.atlas, c.metric, t), c.score))).filter
          (fun e => decide (e.1 = k)) = [] := by
        refine List.filter_eq_nil_iff.2 ?_
        intro e he
        simp only [List.mem_map] at he
        obtain ⟨c', hc', rfl⟩ := he
        simp only [decide_eq_true_eq]
        intro hek
        apply h.1
        have hpair : (c'.atlas, c'.metric) = (c.atlas, c.metric) := by
          have hkk := hek.trans hk.symm
          simp only [Prod.mk.injEq] at hkk
          simp [hkk.1, hkk.2.1]
        rw [← hpair]
        exact List.mem_map.2 ⟨c', hc', rfl⟩
      rw [hnil]
      simp
    · rw [if_neg (by simpa using hk)]
      exact ih h.2

theorem recordedScores_length_le (ws : List WaveInput) (k : CandKey)
    (h : ∀ w ∈ ws, (w.cands.map (fun c => (c.atlas, c.metric))).Nodup) :
    (recordedScores ws k).length ≤ ws.length := by
  induction ws with
  | nil => simp [recordedScores, waveEntries]
  | cons w ws ih =>
    have hsplit : recordedScores (w :: ws) k =
        ((w.cands.map (fun c => ((c.atlas, c.metric, w.tract), c.score))).filter
          (fun e => decide (e.1 = k))).map (·.2) ++ recordedScores ws k := by
      simp [recordedScores, waveEntries, List.filter_append]
    rw [hsplit, List.length_append, List.length_map, List.length_cons]
    have h1 := cands_filter_le_one w.cands w.tract k (h w (List.mem_cons_self w ws))
    have h2 := ih (fun w' hw' => h w' (List.mem_cons_of_mem _ hw'))
    omega

/-- C4 counterexample: two candidates end up with the same average score
(1/2 each), the first seen in only one wave, the second in two; the
ranking keeps the one-wave candidate first, so equal scores are *not*
broken by number of waves. -/
theorem aggregate_no_waves_tiebreak :
    aggregate_top_candidates
        [⟨none, [⟨"A", "m", 1/2⟩, ⟨"B", "m", 2/5⟩]⟩, ⟨none, [⟨"B", "m", 3/5⟩]⟩] =
      [⟨"A", "m", none, 1/2, 1⟩, ⟨"B", "m", none, 1/2, 2⟩] ∧
    (⟨"A", "m", none, 1/2, 1⟩ : RankedCand).average_score =
      (⟨"B", "m", none, 1/2, 2⟩ : RankedCand).average_score ∧
    (⟨"A", "m", none, 1/2, 1⟩ : RankedCand).waves_considered <
      (⟨"B", "m", none, 1/2, 2⟩ : RankedCand).waves_considered := by
  refine ⟨?_, by norm_num, by norm_num⟩
  norm_num [aggregate_top_candidates, sortRankedDesc, insRanked, rankedUnsorted,
    collectScores, waveEntries, addScore, List.foldl, List.filter]

/-- C4 amended: `aggregate_top_candidates` ranks by average score
descending only; candidates with equal average score keep their
first-encounter order (the sort is stable), with no tie-break on the
number of waves. -/
theorem aggregate_ranked_by_avg_stable (ws : List WaveInput) :
    List.Sorted (fun x y => y.average_score ≤ x.average_score)
      (aggregate_top_candidates ws) ∧
    ∀ q : ℚ,
      (aggregate_top_candidates ws).filter (fun r => decide (r.average_score = q)) =
        (rankedUnsorted ws).filter (fun r => decide (r.average_score = q)) :=
  ⟨sortRankedDesc_sorted _, fun q => filter_sortRankedDesc _ q⟩

/-- C5 counterexample: a single wave listing the same candidate identity
twice yields `waves_considered = 2` although only one wave exists, so
`waves_considered` is not bounded by the number of waves in general. -/
theorem aggregate_waves_exceed_total :
    aggregate_top_candidates [⟨none, [⟨"A", "m", 1/2⟩, ⟨"A", "m", 7/10⟩]⟩] =
      [⟨"A", "m", none, 3/5, 2⟩] ∧
    ([(⟨none, [⟨"A", "m", 1/2⟩, ⟨"A", "m", 7/10⟩]⟩ : WaveInput)]).length <
      (⟨"A", "m", none, 3/5, 2⟩ : RankedCand).waves_considered := by
  refine ⟨?_, by norm_num⟩
  norm_num [aggregate_top_candidates, sortRankedDesc, insRanked, rankedUnsorted,
    collectScores, waveEntries, addScore, List.foldl, List.filter]

/-- C5 amended: every aggregated candidate's average score is the
arithmetic mean of exactly the `waves_considered` scores recorded for
its identity; `waves_considered` is bounded by the number of waves
whenever each wave lists each identity at most once (as the producing
selection step guarantees); and two waves reporting scores 0.8 and 0.6
aggregate to average 0.70 with `waves_considered = 2`. -/
theorem aggregate_avg_and_waves (ws : List WaveInput) (r : RankedCand)
    (hr : r ∈ aggregate_top_candidates ws) :
    (r.average_score = (recordedScores ws (r.atlas, r.metric, r.tract)).sum /
        (recordedScores ws (r.atlas, r.metric, r.tract)).length ∧
     r.waves_considered = (recordedScores ws (r.atlas, r.metric, r.tract)).length) ∧
    ((∀ w ∈ ws, (w.cands.map (fun c => (c.atlas, c.metric))).Nodup) →
      r.waves_considered ≤ ws.length) ∧
    aggregate_top_candidates
        [⟨none, [⟨"DK", "fa", 8/10⟩]⟩, ⟨none, [⟨"DK", "fa", 6/10⟩]⟩] =
      [⟨"DK", "fa", none, 7/10, 2⟩] := by
  have hmem : r ∈ rankedUnsorted ws := (sortRankedDesc_perm _).mem_iff.1 hr
  simp only [rankedUnsorted, List.mem_map] at hmem
  obtain ⟨kv, hkv, rfl⟩ := hmem
  have hvals : kv.2 = recordedScores ws kv.1 := collectScores_vals ws kv hkv
  have hkey : ((kv.1.1, kv.1.2.1, kv.1.2.2) : CandKey) = kv.1 := rfl
  refine ⟨⟨?_, ?_⟩, ?_, ?_⟩
  · simp only [hkey, ← hvals]
  · simp only [hkey, ← hvals]
  · intro hnd
    simp only [hkey]
    rw [show ((kv.2.length : ℕ)) = (recordedScores ws kv.1).length by rw [hvals]]
    exact recordedScores_length_le ws kv.1 hnd
  · norm_num [aggregate_top_candidates, sortRankedDesc, insRanked, rankedUnsorted,
      collectScores, waveEntries, addScore, List.foldl, List.filter]

/-- Witness instantiating `aggregate_avg_and_waves` on a one-wave run. -/
theorem aggregate_avg_and_waves_witness :
    (⟨"X", "m", none, 1, 1⟩ : RankedCand).waves_considered =
      (recordedScores [⟨none, [⟨"X", "m", 1⟩]⟩] ("X", "m", none)).length :=
  (aggregate_avg_and_waves [⟨none, [⟨"X", "m", 1⟩]⟩] ⟨"X", "m", none, 1, 1⟩
    (by norm_num [aggregate_top_candidates, sortRankedDesc, insRanked, rankedUnsorted,
      collectScores, waveEntries, addScore, List.foldl, List.filter])).1.2

/-! ### Grid sampling (`scripts/utils/sweep_utils.py`, `grid_product`)

`grid_product` returns `[{}]` for an empty parameter list, else
`[dict(zip(keys, p)) for p in itertools.product(*grids)]`.
`itertools.product` enumerates the rightmost dimension fastest, i.e.
lexicographically over the dimension order; this is exactly the
recursion below.  Parameter dimensions are `(key, values)` pairs and a
combination is an association list in dimension order. -/

/-- `grid_product`: the Cartesian product in `itertools.product` order. -/
def grid_product {α : Type} (pv : List (String × List α)) :
    List (List (String × α)) :=
  match pv with
  | [] => [[]]
  | (k, vals) :: rest =>
    vals.flatMap (fun v => (grid_product rest).map (fun c => (k, v) :: c))

/-- Lexicographic order over dimension order: two combinations compare
at the first dimension where they differ, by position of the value in
that dimension's declared list. -/
inductive GridLexLt {α : Type} [DecidableEq α] :
    List (String × List α) → List (String × α) → List (String × α) → Prop
  | head {k : String} {vals : List α} {rest : List (String × List α)}
      {v1 v2 : α} {c1 c2 : List (String × α)} :
      vals.indexOf v1 < vals.indexOf v2 → v1 ≠ v2 →
      GridLexLt ((k, vals) :: rest) ((k, v1) :: c1) ((k, v2) :: c2)
  | tail {k : String} {vals : List α} {rest : List (String × List α)}
      {v : α} {c1 c2 : List (String × α)} :
      GridLexLt rest c1 c2 →
      GridLexLt ((k, vals) :: rest) ((k, v) :: c1) ((k, v) :: c2)

theorem grid_product_length {α : Type} (pv : List (String × List α)) :
    (grid_product pv).length = (pv.map (fun p => p.2.length)).prod := by
  induction pv with
  | nil => simp [grid_product]
  | cons p rest ih =>
    obtain ⟨k, vals⟩ := p
    simp only [grid_product, List.map_cons, List.prod_cons]
    induction vals with
    | nil => simp
    | cons v vs ihv =>
      simp only [List.flatMap_cons, List.length_append, List.length_map, ih,
        List.length_cons] at *
      rw [ihv]
      ring

theorem grid_product_mem {α : Type} (pv : List (String × List α))
    (c : List (String × α)) (hc : c ∈ grid_product pv) :
    List.Forall₂ (fun (p : String × List α) (kv : String × α) =>
      kv.1 = p.1 ∧ kv.2 ∈ p.2) pv c := by
  induction pv generalizing c with
  | nil =>
    simp only [grid_product, List.mem_singleton] at hc
    subst hc
    exact List.Forall₂.nil
  | cons p rest ih =>
    obtain ⟨k, vals⟩ := p
    simp only [grid_product, List.mem_flatMap, List.mem_map] at hc
    obtain ⟨v, hv, c', hc', rfl⟩ := hc
    exact List.Forall₂.cons ⟨rfl, hv⟩ (ih c' hc')

theorem nodup_pairwise_indexOf {α : Type} [DecidableEq α] (l : List α)
    (h : l.Nodup) :
    l.Pairwise (fun a b => l.indexOf a < l.indexOf b ∧ a ≠ b) := by
  induction l with
  | nil => exact List.Pairwise.nil
  | cons a l ih =>
    rcases List.nodup_cons.1 h with ⟨ha, hl⟩
    refine List.Pairwise.cons ?_ ?_
    · intro b hb
      have hba : b ≠ a := fun hh => ha (hh ▸ hb)
      constructor
      · rw [List.indexOf_cons_self, List.indexOf_cons_ne _ hba.symm]
        exact Nat.succ_pos _
      · exact fun hh => hba hh.symm
    · refine List.Pairwise.imp_of_mem ?_ (ih hl)
      intro x y hx hy hxy
      have hxa : x ≠ a := fun hh => ha (hh ▸ hx)
      have hya : y ≠ a := fun hh => ha (hh ▸ hy)
      refine ⟨?_, hxy.2⟩
      rw [List.indexOf_cons_ne _ hxa.symm, List.indexOf_cons_ne _ hya.symm]
      exact Nat.succ_lt_succ hxy.1

theorem grid_product_pairwise_lex {α : Type} [DecidableEq α]
    (pv : List (String × List α)) (h : ∀ p ∈ pv, p.2.Nodup) :
    List.Pairwise (GridLexLt pv) (grid_product pv) := by
  induction pv with
  | nil => simp [grid_product]
  | cons p rest ih =>
    obtain ⟨k, vals⟩ := p
    simp only [grid_product]
    rw [List.flatMap, List.pairwise_flatten]
    refine ⟨?_, ?_⟩
    · intro l hl
      simp only [List.mem_map] at hl
      obtain ⟨v, _, rfl⟩ := hl
      rw [List.pairwise_map]
      refine (ih (fun p hp => h p (List.mem_cons_of_mem _ hp))).imp ?_
      intro c1 c2 hlex
      exact GridLexLt.tail hlex
    · rw [List.pairwise_map]
      have hvals : vals.Nodup := h (k, vals) (List.mem_cons_self _ _)
      refine (nodup_pairwise_indexOf vals hvals).imp_of_mem ?_
      intro v1 v2 _ _ hv
      intro x hx y hy
      simp only [List.mem_map] at hx hy
      obtain ⟨c1, _, rfl⟩ := hx
      obtain ⟨c2, _, rfl⟩ := hy
      exact GridLexLt.head hv.1 hv.2

theorem gridLexLt_ne {α : Type} [DecidableEq α] {pv : List (String × List α)}
    {c1 c2 : List (String × α)} (hlex : GridLexLt pv c1 c2) : c1 ≠ c2 := by
  induction hlex with
  | head hlt hne =>
    intro h
    injection h with h1 h2
    injection h1 with hk hv
    exact hne hv
  | tail hl ih =>
    intro h
    injection h with h1 h2
    exact ih h2

theorem grid_product_nodup {α : Type} [DecidableEq α]
    (pv : List (String × List α)) (h : ∀ p ∈ pv, p.2.Nodup) :
    (grid_product pv).Nodup := by
  have hpw := grid_product_pairwise_lex pv h
  exact List.Pairwise.imp_of_mem (fun _ _ hlex => gridLexLt_ne hlex) hpw

/-- C6: grid sampling yields exactly the product of the per-dimension
cardinalities, each combination draws each dimension's value from that
dimension's declared list (in dimension order), combinations are
pairwise distinct when the declared value lists are duplicate-free, the
enumeration is lexicographic over dimension order, and zero dimensions
give the single empty combination. -/
theorem grid_product_correct {α : Type} [DecidableEq α] :
    (∀ pv : List (String × List α),
      (grid_product pv).length = (pv.map (fun p => p.2.length)).prod) ∧
    grid_product ([] : List (String × List α)) = [[]] ∧
    (∀ (pv : List (String × List α)) (c : List (String × α)),
      c ∈ grid_product pv →
      List.Forall₂ (fun (p : String × List α) (kv : String × α) =>
        kv.1 = p.1 ∧ kv.2 ∈ p.2) pv c) ∧
    (∀ pv : List (String × List α), (∀ p ∈ pv, p.2.Nodup) →
      (grid_product pv).Nodup ∧
      List.Pairwise (GridLexLt pv) (grid_product pv)) :=
  ⟨grid_product_length, rfl, grid_product_mem,
    fun pv h => ⟨grid_product_nodup pv h, grid_product_pairwise_lex pv h⟩⟩

/-- Witness instantiating `grid_product_correct` on a 2×3 grid. -/
theorem grid_product_correct_witness :
    (grid_product [("a", [1, 2]), ("b", [10, 20, 30])] :
      List (List (String × ℕ))).Nodup :=
  ((@grid_product_correct ℕ _).2.2.2 [("a", [1, 2]), ("b", [10, 20, 30])]
    (by decide)).1

/-! ### Random and Latin-hypercube sampling
(`scripts/utils/sweep_utils.py`, `random_sampling` / `lhs_sampling`)

Both functions first call `random.seed(seed)` resp. `np.random.seed(seed)`
and then draw from the seeded generator only, so every draw is a
deterministic function of the seed and the draw index.  The generators
themselves live outside the repository (CPython's Mersenne Twister,
numpy, pyDOE2); they are modelled by a fixed mixing function of
`(seed, index)` — the claims depend only on the sample count and on the
draws being functions of the seed.  A draw from an empty value list
raises in Python; that is modelled by returning `none`. -/

/-- Deterministic stand-in for the seeded PRNG stream. -/
def rngStream (seed i : ℕ) : ℕ :=
  (seed * 6364136223846793005 + i * 1442695040888963407 + 1013904223) % 2 ^ 64

/-- A Python comprehension that can raise: build the list of results,
failing as a whole if any element fails. -/
def optMap {β γ : Type} (f : β → Option γ) : List β → Option (List γ)
  | [] => some []
  | b :: l =>
    match f b, optMap f l with
    | some c, some r => some (c :: r)
    | _, _ => none

theorem optMap_length {β γ : Type} (f : β → Option γ) (l : List β)
    (h : ∀ b ∈ l, ∃ c, f b = some c) :
    ∃ r, optMap f l = some r ∧ r.length = l.length := by
  induction l with
  | nil => exact ⟨[], rfl, rfl⟩
  | cons b l ih =>
    obtain ⟨c, hc⟩ := h b (List.mem_cons_self b l)
    obtain ⟨r, hr, hlen⟩ := ih (fun b' hb' => h b' (List.mem_cons_of_mem _ hb'))
    exact ⟨c :: r, by simp [optMap, hc, hr], by simp [hlen]⟩

/-- `random_sampling`: `[{}] * n_samples` for an empty parameter list;
otherwise each of the `n_samples` dicts draws, per dimension, a
uniformly chosen element of that dimension's value list
(`random.choice(grids[i])`). -/
def random_sampling {α : Type} (pv : List (String × List α)) (n seed : ℕ) :
    Option (List (List (String × α))) :=
  if pv.isEmpty then some (List.replicate n []) else
  optMap (fun t =>
    optMap (fun i =>
      match pv[i]? with
      | some (k, vals) =>
        match vals[rngStream seed (t * pv.length + i) % vals.length]? with
        | some v => some (k, v)
        | none => none
      | none => none) (List.range pv.length)) (List.range n)

/-- The unit-interval entry `lhd[i, j]` of the pyDOE2 Latin-hypercube
matrix, modelled from the seeded stream. -/
def lhs_unit (seed i : ℕ) : ℚ := (rngStream seed i % 1000 : ℕ) / 1000

/-- `lhs_sampling`: `idx = min(int(lhd[i, j] * len(grids[j])), len - 1)`
then `grids[j][idx]`. -/
def lhs_sampling {α : Type} (pv : List (String × List α)) (n seed : ℕ) :
    Option (List (List (String × α))) :=
  if pv.isEmpty then some (List.replicate n []) else
  optMap (fun t =>
    optMap (fun j =>
      match pv[j]? with
      | some (k, vals) =>
        match vals[min (⌊lhs_unit seed (t * pv.length + j) * vals.length⌋.toNat)
            (vals.length - 1)]? with
        | some v => some (k, v)
        | none => none
      | none => none) (List.range pv.length)) (List.range n)

/-- C7: with nonempty value lists, `random_sampling` and `lhs_sampling`
each return exactly `n_samples` combinations, and two calls with the
same seed and the same parameter declarations return identical
sequences of combinations. -/
theorem sampling_count_and_determinism {α : Type} :
    (∀ (pv : List (String × List α)) (n seed : ℕ), (∀ p ∈ pv, p.2 ≠ []) →
      ∃ l, random_sampling pv n seed = some l ∧ l.length = n) ∧
    (∀ (pv : List (String × List α)) (n seed : ℕ), (∀ p ∈ pv, p.2 ≠ []) →
      ∃ l, lhs_sampling pv n seed = some l ∧ l.length = n) ∧
    (∀ (pv : List (String × List α)) (n s1 s2 : ℕ), s1 = s2 →
      random_sampling pv n s1 = random_sampling pv n s2 ∧
      lhs_sampling pv n s1 = lhs_sampling pv n s2) := by
  have hget : ∀ (pv : List (String × List α)) (i : ℕ), i < pv.length →
      ∃ kv, pv[i]? = some kv := by
    intro pv i hi
    exact ⟨pv[i], List.getElem?_eq_some.2 ⟨hi, rfl⟩⟩
  refine ⟨?_, ?_, ?_⟩
  · intro pv n seed hne
    by_cases hpv : pv = []
    · exact ⟨List.replicate n [], by simp [random_sampling, hpv], by simp⟩
    · rw [random_sampling, if_neg (by simp [List.isEmpty_iff, hpv])]
      have hinner : ∀ t : ℕ, ∃ c, optMap (fun i =>
          match pv[i]? with
          | some (k, vals) =>
            match vals[rngStream seed (t * pv.length + i) % vals.length]? with
            | some v => some (k, v)
            | none => none
          | none => none) (List.range pv.length) = some c := by
        intro t
        have hall : ∀ i ∈ List.range pv.length, ∃ c,
            (match pv[i]? with
             | some (k, vals) =>
               match vals[rngStream seed (t * pv.length + i) % vals.length]? with
               | some v => some (k, v)
               | none => none
             | none => none) = some c := by
          intro i hi
          rw [List.mem_range] at hi
          obtain ⟨⟨k, vals⟩, hkv⟩ := hget pv i hi
          have hvne : vals ≠ [] := hne (k, vals) (by
            obtain ⟨hlt, hEq⟩ := List.getElem?_eq_some.1 hkv
            exact hEq ▸ List.getElem_mem hlt)
          have hlt : rngStream seed (t * pv.length + i) % vals.length < vals.length :=
            Nat.mod_lt _ (List.length_pos.2 hvne)
          refine ⟨(k, vals[rngStream seed (t * pv.length + i) % vals.length]), ?_⟩
          rw [hkv]
          simp [List.getElem?_eq_some.2 ⟨hlt, rfl⟩]
        exact Exists.imp (fun c hc => hc.1) (optMap_length _ (List.range pv.length) hall)
      obtain ⟨l, hl, hlen⟩ := optMap_length _ (List.range n) (fun t _ => hinner t)
      exact ⟨l, hl, by simpa using hlen⟩
  · intro pv n seed hne
    by_cases hpv : pv = []
    · exact ⟨List.replicate n [], by simp [lhs_sampling, hpv], by simp⟩
    · rw [lhs_sampling, if_neg (by simp [List.isEmpty_iff, hpv])]
      have hinner : ∀ t : ℕ, ∃ c, optMap (fun j =>
          match pv[j]? with
          | some (k, vals) =>
            match vals[min (⌊lhs_unit seed (t * pv.length + j) * vals.length⌋.toNat)
                (vals.length - 1)]? with
            | some v => some (k, v)
            | none => none
          | none => none) (List.range pv.length) = some c := by
        intro t
        have hall : ∀ j ∈ List.range pv.length, ∃ c,
            (match pv[j]? with
             | some (k, vals) =>
               match vals[min (⌊lhs_unit seed (t * pv.length + j) * vals.length⌋.toNat)
                   (vals.length - 1)]? with
               | some v => some (k, v)
               | none => none
             | none => none) = some c := by
          intro j hj
          rw [List.mem_range] at hj
          obtain ⟨⟨k, vals⟩, hkv⟩ := hget pv j hj
          have hvne : vals ≠ [] := hne (k, vals) (by
            obtain ⟨hlt, hEq⟩ := List.getElem?_eq_some.1 hkv
            exact hEq ▸ List.getElem_mem hlt)
          have hpos : 0 < vals.length := List.length_pos.2 hvne
          have hlt : min (⌊lhs_unit seed (t * pv.length + j) * vals.length⌋.toNat)
              (vals.length - 1) < vals.length := by
            have hsub : vals.length - 1 < vals.length := Nat.sub_lt hpos Nat.one_pos
            exact lt_of_le_of_lt (min_le_right _ _) hsub
          refine ⟨(k, vals[min (⌊lhs_unit seed (t * pv.length + j) * vals.length⌋.toNat)
              (vals.length - 1)]), ?_⟩
          rw [hkv]
          simp [List.getElem?_eq_some.2 ⟨hlt, rfl⟩]
        exact Exists.imp (fun c hc => hc.1) (optMap_length _ (List.range pv.length) hall)
      obtain ⟨l, hl, hlen⟩ := optMap_length _ (List.range n) (fun t _ => hinner t)
      exact ⟨l, hl, by simpa using hlen⟩
  · intro pv n s1 s2 hs
    subst hs
    exact ⟨rfl, rfl⟩

/-- Witness instantiating `sampling_count_and_determinism`: one
dimension with two values, three samples. -/
theorem sampling_count_and_determinism_witness :
    ∃ l, random_sampling [("a", [1, 2])] 3 42 = some l ∧ l.length = 3 :=
  (@sampling_count_and_determinism ℕ).1 [("a", [1, 2])] 3 42
    (by intro p hp; simp at hp; subst hp; simp)

/-! ### Evaluation timeout handling
(`cross_validation_bootstrap_optimizer.py`, `run_connectivity_extraction`)

The subprocess call uses `timeout=1800`; `subprocess.run` kills the child
and raises `TimeoutExpired`, which the function catches, logging a
warning and returning `False` — the same value returned for a nonzero
exit code or any other exception.  No `EvaluationResult` with a
`status` field exists anywhere in the repository, and
`BayesianOptimizer._evaluate_params` waits on its child with no timeout
argument at all.  Wall-clock time itself is not embedded; the embedding
captures which outcome of the child process maps to which recorded
result. -/

/-- Outcome of the child process as seen by the caller. -/
inductive ProcOutcome where
  | completed (rc : ℤ)
  | timedOut
  | raised
deriving DecidableEq, Repr

/-- `run_connectivity_extraction` control flow: `returncode == 0 → True`;
nonzero exit, `TimeoutExpired` and any other exception → `False`. -/
def run_connectivity_extraction (o : ProcOutcome) : Bool :=
  match o with
  | .completed rc => rc == 0
  | .timedOut => false
  | .raised => false

/-- C8 counterexample: the timed-out evaluation is recorded as the same
value (`False`) as an ordinary failed evaluation, so no recording
function can assign it a distinct `timeout` status; the spec's
`status = timeout` record does not exist in the code. -/
theorem run_connectivity_extraction_conflates_timeout :
    run_connectivity_extraction ProcOutcome.timedOut =
      run_connectivity_extraction (ProcOutcome.completed 1) ∧
    ¬ ∃ statusOf : Bool → String,
        statusOf (run_connectivity_extraction ProcOutcome.timedOut) = "timeout" ∧
        statusOf (run_connectivity_extraction (ProcOutcome.completed 1)) ≠ "timeout" := by
  refine ⟨rfl, ?_⟩
  rintro ⟨f, h1, h2⟩
  exact h2 h1

/-- C8 amended: an evaluation whose child process times out (or fails,
or raises) makes `run_connectivity_extraction` return `False`; only a
zero exit code returns `True`.  The timeout is therefore caught and
non-blocking but is recorded indistinguishably from other failures. -/
theorem run_connectivity_extraction_result (o : ProcOutcome) :
    (run_connectivity_extraction o = true ↔ o = ProcOutcome.completed 0) ∧
    run_connectivity_extraction ProcOutcome.timedOut = false := by
  refine ⟨?_, rfl⟩
  cases o with
  | completed rc =>
    constructor
    · intro h
      simp only [run_connectivity_extraction, beq_iff_eq] at h
      rw [h]
    · intro h
      injection h with h'
      simp [run_connectivity_extraction, h']
  | timedOut => simp [run_connectivity_extraction]
  | raised => simp [run_connectivity_extraction]

/-- Witness instantiating `run_connectivity_extraction_result` at a
successful exit. -/
theorem run_connectivity_extraction_result_witness :
    run_connectivity_extraction (ProcOutcome.completed 0) = true :=
  ((run_connectivity_extraction_result (ProcOutcome.completed 0)).1).2 rfl

/-! ### Optimization progress and restart
(`scripts/bayesian_optimizer.py`, `optimize` / `_save_progress`)

`__init__` sets `self.iteration_results = []` and never reads a
previously persisted progress file; `optimize` loops
`while len(self.iteration_results) < self.n_iterations`, each successful
evaluation appends a record with `iteration = len + 1` and rewrites the
progress file with `completed_iterations = len(self.iteration_results)`.
The model below follows the sequential path with all evaluations
succeeding. -/

/-- Content of `bayesian_optimization_progress.json` (the field the
claim is about). -/
structure OptProgress where
  completed_iterations : ℕ
deriving DecidableEq, Repr

/-- Optimizer state: completed iteration records, a log of every
iteration number evaluated during this run, and the progress file. -/
structure OptState where
  iteration_results : List ℕ
  evaluated : List ℕ
  progress : Option OptProgress
deriving DecidableEq, Repr

/-- `__init__`: empty results, regardless of any progress persisted by
an earlier run (the file is left on disk untouched until the first
save). -/
def optInit (prior : Option OptProgress) : OptState := ⟨[], [], prior⟩

/-- One successful evaluation: evaluate iteration `len + 1`, append the
record, rewrite the progress file. -/
def optStep (st : OptState) : OptState :=
  let iter := st.iteration_results.length + 1
  { iteration_results := st.iteration_results ++ [iter],
    evaluated := st.evaluated ++ [iter],
    progress := some ⟨st.iteration_results.length + 1⟩ }

/-- The optimization loop, running until `n_iterations` results exist
(`k` remaining evaluations). -/
def optLoop : ℕ → OptState → OptState
  | 0, st => st
  | k + 1, st => optLoop k (optStep st)

/-- `optimize` with `M` planned iterations, possibly after an earlier
run persisted `prior`: the fresh state has no results, so all `M`
iterations run. -/
def optimize (M : ℕ) (prior : Option OptProgress) : OptState :=
  optLoop M (optInit prior)

theorem optLoop_spec (k : ℕ) (st : OptState) :
    (optLoop k st).iteration_results =
      st.iteration_results ++ List.range' (st.iteration_results.length + 1) k ∧
    (optLoop k st).evaluated =
      st.evaluated ++ List.range' (st.iteration_results.length + 1) k ∧
    (optLoop k st).progress =
      (if k = 0 then st.progress
       else some ⟨st.iteration_results.length + k⟩) := by
  induction k generalizing st with
  | zero => simp [optLoop]
  | succ k ih =>
    obtain ⟨h1, h2, h3⟩ := ih (optStep st)
    have hlen : (optStep st).iteration_results.length =
        st.iteration_results.length + 1 := by
      simp [optStep]
    refine ⟨?_, ?_, ?_⟩
    · rw [optLoop, h1, hlen]
      simp only [optStep, List.append_assoc, List.singleton_append]
      rw [List.range'_succ]
    · rw [optLoop, h2, hlen]
      simp only [optStep, List.append_assoc, List.singleton_append]
      rw [List.range'_succ]
    · rw [optLoop, h3, hlen]
      by_cases hk : k = 0
      · subst hk
        simp [optStep]
      · rw [if_neg hk, if_neg (Nat.succ_ne_zero k)]
        have harith : st.iteration_results.length + 1 + k =
            st.iteration_results.length + (k + 1) := by omega
        rw [harith]

/-- C9 counterexample: restarting a 2-iteration run whose progress file
records 1 completed iteration re-evaluates iteration 1 (the run
evaluates `[1, 2]`, not `[2]`): nothing ever reads the progress file
back, so there is no resume. -/
theorem optimize_restart_reevaluates :
    (optimize 2 (some ⟨1⟩)).evaluated = [1, 2] ∧
    1 ∈ (optimize 2 (some ⟨1⟩)).evaluated ∧
    (optimize 2 (some ⟨1⟩)).evaluated ≠ [2] := by
  refine ⟨rfl, ?_, ?_⟩ <;> decide

/-- C9 amended: a (re)started run always evaluates iterations `1..M`
from scratch — persisted progress is never read back — and after every
successful evaluation the progress file is rewritten so that
`completed_iterations` equals the number of results so far; in
particular the final persisted count equals `M`. -/
theorem optimize_progress_spec (M : ℕ) (prior : Option OptProgress) :
    (optimize M prior).evaluated = List.range' 1 M ∧
    (0 < M → (optimize M prior).progress = some ⟨M⟩) ∧
    (M = 0 → (optimize M prior).progress = prior) ∧
    (∀ k, 0 < k → (optLoop k (optInit prior)).progress =
      some ⟨(optLoop k (optInit prior)).iteration_results.length⟩) := by
  obtain ⟨h1, h2, h3⟩ := optLoop_spec M (optInit prior)
  refine ⟨?_, ?_, ?_, ?_⟩
  · rw [optimize, h2]
    simp [optInit]
  · intro hM
    rw [optimize, h3, if_neg (Nat.pos_iff_ne_zero.1 hM)]
    simp [optInit]
  · intro hM
    subst hM
    rw [optimize, h3, if_pos rfl]
    rfl
  · intro k hk
    obtain ⟨g1, _, g3⟩ := optLoop_spec k (optInit prior)
    rw [g1, g3, if_neg (Nat.pos_iff_ne_zero.1 hk)]
    simp [optInit]

/-- Witness instantiating `optimize_progress_spec` on a 3-iteration run:
the final persisted count is 3. -/
theorem optimize_progress_spec_witness :
    (optimize 3 none).progress = some ⟨3⟩ :=
  (optimize_progress_spec 3 none).2.1 (by decide)

/-! ### Auto-best selection across waves
(`scripts/opticonn_hub.py`, review command, auto-select)

All candidates of all waves are concatenated into one table; the key is
`atlas + "_" + connectivity_metric`, `waves_present` counts the distinct
waves in which a key occurs, `total_waves` the distinct waves overall.
If some keys occur in every wave, the best is the first row (pandas
`idxmax`) of the consistent rows attaining the maximal per-key mean
score; otherwise a warning is printed and the best is the first row of
the whole table attaining the maximal single score.  The printed
warning is modelled as a Boolean flag. -/

/-- One row of the concatenated candidate table. -/
structure HubRow where
  atlas : String
  metric : String
  wave : String
  score : ℚ
deriving DecidableEq, Repr

/-- `candidate_key = atlas + "_" + connectivity_metric`. -/
def rowKey (r : HubRow) : String := r.atlas ++ "_" ++ r.metric

/-- `df.groupby("candidate_key")["wave"].nunique()` for one key. -/
def wavesOfKey (rows : List HubRow) (k : String) : ℕ :=
  ((rows.filter (fun r => decide (rowKey r = k))).map (·.wave)).dedup.length

/-- `df["wave"].nunique()`. -/
def totalWaves (rows : List HubRow) : ℕ := (rows.map (·.wave)).dedup.length

/-- Rows whose key occurs in every wave. -/
def consistentRows (rows : List HubRow) : List HubRow :=
  rows.filter (fun r => decide (wavesOfKey rows (rowKey r) = totalWaves rows))

/-- `df.groupby("candidate_key")["pure_qa_score"].mean()` for one key. -/
def avgQA (rows : List HubRow) (k : String) : ℚ :=
  ((rows.filter (fun r => decide (rowKey r = k))).map (·.score)).sum /
    ((rows.filter (fun r => decide (rowKey r = k))).map (·.score)).length

/-- pandas `idxmax`: the first row attaining the maximum of `f`. -/
def idxmaxBy (f : HubRow → ℚ) : List HubRow → Option HubRow
  | [] => none
  | r :: rest =>
    match idxmaxBy f rest with
    | none => some r
    | some b => if f r < f b then some b else some r

/-- The auto-select step: best candidate and whether the
no-candidate-in-all-waves warning was raised. -/
def hub_auto_select (rows : List HubRow) : Option HubRow × Bool :=
  if (consistentRows rows).isEmpty then
    (idxmaxBy (fun r => r.score) rows, true)
  else
    (idxmaxBy (fun r => avgQA rows (rowKey r)) (consistentRows rows), false)

theorem idxmaxBy_isSome (f : HubRow → ℚ) (l : List HubRow) (h : l ≠ []) :
    ∃ b, idxmaxBy f l = some b := by
  cases l with
  | nil => exact absurd rfl h
  | cons r rest =>
    cases hrest : idxmaxBy f rest with
    | none => exact ⟨r, by simp [idxmaxBy, hrest]⟩
    | some b =>
      by_cases hc : f r < f b
      · exact ⟨b, by simp [idxmaxBy, hrest, hc]⟩
      · exact ⟨r, by simp [idxmaxBy, hrest, hc]⟩

theorem idxmaxBy_mem (f : HubRow → ℚ) (l : List HubRow) (b : HubRow)
    (h : idxmaxBy f l = some b) : b ∈ l := by
  induction l generalizing b with
  | nil => simp [idxmaxBy] at h
  | cons r rest ih =>
    simp only [idxmaxBy] at h
    cases hrest : idxmaxBy f rest with
    | none =>
      rw [hrest] at h
      exact (Option.some_inj.1 h) ▸ List.mem_cons_self r rest
    | some b' =>
      rw [hrest] at h
      dsimp only at h
      by_cases hc : f r < f b'
      · rw [if_pos hc] at h
        exact List.mem_cons_of_mem r ((Option.some_inj.1 h) ▸ ih b' hrest)
      · rw [if_neg hc] at h
        exact (Option.some_inj.1 h) ▸ List.mem_cons_self r rest

theorem idxmaxBy_max (f : HubRow → ℚ) (l : List HubRow) (b : HubRow)
    (h : idxmaxBy f l = some b) : ∀ r ∈ l, f r ≤ f b := by
  induction l generalizing b with
  | nil => simp [idxmaxBy] at h
  | cons r rest ih =>
    simp only [idxmaxBy] at h
    intro x hx
    cases hrest : idxmaxBy f rest with
    | none =>
      rw [hrest] at h
      cases rest with
      | nil =>
        rcases List.mem_singleton.1 hx with rfl
        rw [← Option.some_inj.1 h]
      | cons y ys =>
        exfalso
        obtain ⟨b', hb'⟩ := idxmaxBy_isSome f (y :: ys) (List.cons_ne_nil y ys)
        rw [hb'] at hrest
        exact Option.noConfusion hrest
    | some b' =>
      rw [hrest] at h
      dsimp only at h
      rcases List.mem_cons.1 hx with rfl | hx
      · by_cases hc : f x < f b'
        · rw [if_pos hc] at h
          exact le_of_lt ((Option.some_inj.1 h) ▸ hc)
        · rw [if_neg hc] at h
          rw [← Option.some_inj.1 h]
      · by_cases hc : f r < f b'
        · rw [if_pos hc] at h
          exact (Option.some_inj.1 h) ▸ ih b' hrest x hx
        · rw [if_neg hc] at h
          have hle := ih b' hrest x hx
          rw [← Option.some_inj.1 h]
          exact hle.trans (not_lt.1 hc)

/-- C2: auto-best selection always returns some candidate (non-fatal):
among the rows whose key occurs in every wave it returns a first row of
maximal per-key mean score with the warning flag off; if no key occurs
in every wave it falls back to a row of maximal single score over all
rows and raises the warning flag. -/
theorem hub_auto_select_spec (rows : List HubRow) (hne : rows ≠ []) :
    (∃ b, (hub_auto_select rows).1 = some b) ∧
    (consistentRows rows ≠ [] →
      (hub_auto_select rows).2 = false ∧
      ∃ b, (hub_auto_select rows).1 = some b ∧ b ∈ consistentRows rows ∧
        ∀ r ∈ consistentRows rows, avgQA rows (rowKey r) ≤ avgQA rows (rowKey b)) ∧
    (consistentRows rows = [] →
      (hub_auto_select rows).2 = true ∧
      ∃ b, (hub_auto_select rows).1 = some b ∧ b ∈ rows ∧
        ∀ r ∈ rows, r.score ≤ b.score) := by
  by_cases hcons : consistentRows rows = []
  · have hemp : (consistentRows rows).isEmpty = true := by simp [hcons]
    obtain ⟨b, hb⟩ := idxmaxBy_isSome (fun r => r.score) rows hne
    refine ⟨⟨b, by simp [hub_auto_select, hemp, hb]⟩, fun hc => absurd hcons hc, ?_⟩
    intro _
    refine ⟨by simp [hub_auto_select, hemp], b, by simp [hub_auto_select, hemp, hb],
      idxmaxBy_mem _ rows b hb, idxmaxBy_max _ rows b hb⟩
  · have hemp : (consistentRows rows).isEmpty = false := by
      simpa [List.isEmpty_iff] using hcons
    obtain ⟨b, hb⟩ :=
      idxmaxBy_isSome (fun r => avgQA rows (rowKey r)) (consistentRows rows) hcons
    refine ⟨⟨b, by simp [hub_auto_select, hemp, hb]⟩, ?_, fun hc => absurd hc hcons⟩
    intro _
    exact ⟨by simp [hub_auto_select, hemp], b, by simp [hub_auto_select, hemp, hb],
      idxmaxBy_mem _ _ b hb, idxmaxBy_max _ _ b hb⟩

/-- Witness instantiating `hub_auto_select_spec` on a two-wave table. -/
theorem hub_auto_select_spec_witness :
    ∃ b, (hub_auto_select
      [⟨"A", "m", "w1", 1⟩, ⟨"A", "m", "w2", 2⟩]).1 = some b :=
  (hub_auto_select_spec [⟨"A", "m", "w1", 1⟩, ⟨"A", "m", "w2", 2⟩]
    (List.cons_ne_nil _ _)).1

/-! ### Applying a parameter choice to a configuration
(`scripts/utils/sweep_utils.py`, `apply_param_choice_to_config`)

The source deep-copies the base config and then, per chosen parameter,
either walks the dotted `maps_to` path (creating empty dicts for
missing intermediate keys, raising `TypeError` if an intermediate value
is not a dict) and sets the final key, or sets the parameter name as a
top-level key.  Nested configs are modelled as trees of association
lists; the deep copy is value semantics; a raised `TypeError` is
`none`; mapping paths appear already split on `"."` (the source stores
dotted strings and calls `split('.')` at use — `split` always returns at
least one segment, so paths are nonempty).  Setting an existing key
keeps its position, a new key is appended (Python dict semantics). -/

/-- A configuration value: scalar or nested dict. -/
inductive CfgVal where
  | leaf (v : ℤ)
  | node (fields : List (String × CfgVal))

/-- First-match lookup in an association list (`target[part]`). -/
def getK : List (String × CfgVal) → String → Option CfgVal
  | [], _ => none
  | (k', v) :: rest, k => if k' = k then some v else getK rest k

/-- Dict assignment: update the existing key in place, else append. -/
def setK : List (String × CfgVal) → String → CfgVal → List (String × CfgVal)
  | [], k, v => [(k, v)]
  | (k', v') :: rest, k, v =>
    if k' = k then (k', v) :: rest else (k', v') :: setK rest k v

/-- Walk `path[:-1]` (creating `{}` for missing keys, failing on a
non-dict intermediate) and set the last segment. -/
def setPathF : List (String × CfgVal) → List String → CfgVal →
    Option (List (String × CfgVal))
  | _, [], _ => none
  | fs, [p], v => some (setK fs p v)
  | fs, p :: q :: rest, v =>
    match getK fs p with
    | some (.leaf _) => none
    | some (.node g) =>
      (setPathF g (q :: rest) v).map (fun g2 => setK fs p (.node g2))
    | none =>
      (setPathF [] (q :: rest) v).map (fun g2 => setK fs p (.node g2))

/-- Read the value at a nested path (observer used to state the frame
and effect properties). -/
def getPathF : List (String × CfgVal) → List String → Option CfgVal
  | _, [] => none
  | fs, [p] => getK fs p
  | fs, p :: q :: rest =>
    match getK fs p with
    | some (.node g) => getPathF g (q :: rest)
    | _ => none

/-- `q` lies at or under `p`. -/
def pathBelow (p q : List String) : Prop := ∃ r, q = p ++ r

/-- First-match lookup in the `mapping` dict. -/
def lookupMap : List (String × List String) → String → Option (List String)
  | [], _ => none
  | (k', p) :: rest, k => if k' = k then some p else lookupMap rest k

/-- The path written for parameter `k`: its mapped path if `k in
mapping`, else the top-level key `[k]`. -/
def pathOfKey (mapping : List (String × List String)) (k : String) :
    List String :=
  match lookupMap mapping k with
  | some p => p
  | none => [k]

/-- `apply_param_choice_to_config`: fold the choice items over the
copied config, setting each mapped path (failure propagates like the
raised exception). -/
def apply_param_choice_to_config : List (String × CfgVal) →
    List (String × CfgVal) → List (String × List String) →
    Option (List (String × CfgVal))
  | base, [], _ => some base
  | base, kv :: rest, mapping =>
    match setPathF base (pathOfKey mapping kv.1) kv.2 with
    | none => none
    | some cfg2 => apply_param_choice_to_config cfg2 rest mapping

theorem getK_setK (fs : List (String × CfgVal)) (k : String) (v : CfgVal)
    (k' : String) :
    getK (setK fs k v) k' = if k = k' then some v else getK fs k' := by
  induction fs with
  | nil =>
    by_cases h : k = k' <;> simp [setK, getK, h]
  | cons kv rest ih =>
    obtain ⟨k2, v2⟩ := kv
    by_cases h2 : k2 = k
    · subst h2
      by_cases h : k2 = k' <;> simp [setK, getK, h]
    · by_cases h : k2 = k'
      · subst h
        have hkk : ¬ k = k2 := fun hh => h2 hh.symm
        simp [setK, getK, h2, hkk]
      · simp [setK, getK, h2, h, ih]

theorem pathBelow_cons (x : String) (p q : List String) :
    pathBelow (x :: p) (x :: q) ↔ pathBelow p q := by
  constructor
  · rintro ⟨r, hr⟩
    injection hr with _ h2
    exact ⟨r, h2⟩
  · rintro ⟨r, hr⟩
    exact ⟨r, by simp [hr]⟩

theorem getPathF_setPathF_self (p : List String) (fs fs2 : List (String × CfgVal))
    (v : CfgVal) (h : setPathF fs p v = some fs2) : getPathF fs2 p = some v := by
  induction p generalizing fs fs2 with
  | nil => simp [setPathF] at h
  | cons p0 tail ih =>
    cases tail with
    | nil =>
      simp only [setPathF, Option.some_inj] at h
      subst h
      simp [getPathF, getK_setK]
    | cons q rest =>
      simp only [setPathF] at h
      cases hget : getK fs p0 with
      | none =>
        rw [hget] at h
        simp only [Option.map_eq_some'] at h
        obtain ⟨g2, hg2, rfl⟩ := h
        simp only [getPathF, getK_setK, if_pos rfl]
        exact ih [] g2 hg2
      | some cv =>
        rw [hget] at h
        cases cv with
        | leaf w => simp at h
        | node g =>
          simp only [Option.map_eq_some'] at h
          obtain ⟨g2, hg2, rfl⟩ := h
          simp only [getPathF, getK_setK, if_pos rfl]
          exact ih g g2 hg2

theorem getPathF_setPathF_frame (p : List String) (fs fs2 : List (String × CfgVal))
    (v : CfgVal) (h : setPathF fs p v = some fs2) (q : List String)
    (h1 : ¬ pathBelow p q) (h2 : ¬ pathBelow q p) :
    getPathF fs2 q = getPathF fs q := by
  induction p generalizing fs fs2 q with
  | nil => simp [setPathF] at h
  | cons p0 tail ih =>
    cases tail with
    | nil =>
      simp only [setPathF, Option.some_inj] at h
      subst h
      cases q with
      | nil => simp [getPathF]
      | cons q0 qr =>
        have hq0 : ¬ p0 = q0 := by
          intro hh
          subst hh
          cases qr with
          | nil => exact h1 ⟨[], rfl⟩
          | cons q1 qr2 => exact h1 ⟨q1 :: qr2, rfl⟩
        cases qr with
        | nil => simp [getPathF, getK_setK, hq0]
        | cons q1 qr2 => simp [getPathF, getK_setK, hq0]
    | cons p1 pr =>
      simp only [setPathF] at h
      cases q with
      | nil => simp [getPathF]
      | cons q0 qr =>
        by_cases hq0 : q0 = p0
        · subst hq0
          cases qr with
          | nil =>
            exact absurd ⟨p1 :: pr, rfl⟩ h2
          | cons q1 qr2 =>
            have hb1 : ¬ pathBelow (p1 :: pr) (q1 :: qr2) := by
              intro hb
              exact h1 ((pathBelow_cons q0 _ _).2 hb)
            have hb2 : ¬ pathBelow (q1 :: qr2) (p1 :: pr) := by
              intro hb
              exact h2 ((pathBelow_cons q0 _ _).2 hb)
            cases hget : getK fs q0 with
            | none =>
              rw [hget] at h
              simp only [Option.map_eq_some'] at h
              obtain ⟨g2, hg2, rfl⟩ := h
              have hk : getK (setK fs q0 (CfgVal.node g2)) q0 =
                  some (CfgVal.node g2) := by
                rw [getK_setK, if_pos rfl]
              simp only [getPathF, hk, hget]
              rw [ih [] g2 hg2 (q1 :: qr2) hb1 hb2]
              cases qr2 with
              | nil => simp [getPathF, getK]
              | cons q2 qr3 => simp [getPathF, getK]
            | some cv =>
              rw [hget] at h
              cases cv with
              | leaf w => simp at h
              | node g =>
                simp only [Option.map_eq_some'] at h
                obtain ⟨g2, hg2, rfl⟩ := h
                have hk : getK (setK fs q0 (CfgVal.node g2)) q0 =
                    some (CfgVal.node g2) := by
                  rw [getK_setK, if_pos rfl]
                simp only [getPathF, hk, hget]
                exact ih g g2 hg2 (q1 :: qr2) hb1 hb2
        · have hgq : ∀ g2, getK (setK fs p0 (CfgVal.node g2)) q0 = getK fs q0 := by
            intro g2
            rw [getK_setK]
            exact if_neg (fun hh => hq0 hh.symm)
          cases hget : getK fs p0 with
          | none =>
            rw [hget] at h
            simp only [Option.map_eq_some'] at h
            obtain ⟨g2, hg2, rfl⟩ := h
            cases qr with
            | nil => simp [getPathF, hgq]
            | cons q1 qr2 => simp [getPathF, hgq]
          | some cv =>
            rw [hget] at h
            cases cv with
            | leaf w => simp at h
            | node g =>
              simp only [Option.map_eq_some'] at h
              obtain ⟨g2, hg2, rfl⟩ := h
              cases qr with
              | nil => simp [getPathF, hgq]
              | cons q1 qr2 => simp [getPathF, hgq]

theorem apply_frame_aux (choice : List (String × CfgVal))
    (base out : List (String × CfgVal)) (mapping : List (String × List String))
    (h : apply_param_choice_to_config base choice mapping = some out)
    (q : List String)
    (hq : ∀ kv ∈ choice, ¬ pathBelow (pathOfKey mapping kv.1) q ∧
      ¬ pathBelow q (pathOfKey mapping kv.1)) :
    getPathF out q = getPathF base q := by
  induction choice generalizing base with
  | nil =>
    simp only [apply_param_choice_to_config, Option.some_inj] at h
    rw [h]
  | cons kv rest ih =>
    simp only [apply_param_choice_to_config] at h
    cases hset : setPathF base (pathOfKey mapping kv.1) kv.2 with
    | none => rw [hset] at h; exact Option.noConfusion h
    | some cfg2 =>
      rw [hset] at h
      have hkv := hq kv (List.mem_cons_self kv rest)
      rw [ih cfg2 h (fun kv' hkv' => hq kv' (List.mem_cons_of_mem _ hkv'))]
      exact getPathF_setPathF_frame _ base cfg2 kv.2 hset q hkv.1 hkv.2

theorem apply_effect_aux (choice : List (String × CfgVal))
    (base out : List (String × CfgVal)) (mapping : List (String × List String))
    (h : apply_param_choice_to_config base choice mapping = some out)
    (hpw : choice.Pairwise (fun kv kv' =>
      ¬ pathBelow (pathOfKey mapping kv.1) (pathOfKey mapping kv'.1) ∧
      ¬ pathBelow (pathOfKey mapping kv'.1) (pathOfKey mapping kv.1))) :
    ∀ kv ∈ choice, getPathF out (pathOfKey mapping kv.1) = some kv.2 := by
  induction choice generalizing base with
  | nil => intro kv hkv; simp at hkv
  | cons kv0 rest ih =>
    simp only [apply_param_choice_to_config] at h
    cases hset : setPathF base (pathOfKey mapping kv0.1) kv0.2 with
    | none => rw [hset] at h; exact Option.noConfusion h
    | some cfg2 =>
      rw [hset] at h
      rcases List.pairwise_cons.1 hpw with ⟨hhead, htail⟩
      intro kv hkv
      rcases List.mem_cons.1 hkv with rfl | hkv
      · have hframe : getPathF out (pathOfKey mapping kv.1) =
            getPathF cfg2 (pathOfKey mapping kv.1) := by
          refine apply_frame_aux rest cfg2 out mapping h _ ?_
          intro kv' hkv'
          exact ⟨(hhead kv' hkv').2, (hhead kv' hkv').1⟩
        rw [hframe]
        exact getPathF_setPathF_self _ base cfg2 kv.2 hset
      · exact ih cfg2 h htail kv hkv

/-- C10: applying a parameter choice is a pure function of the copied
base configuration (the source deep-copies, so the base is never
mutated — value semantics in this embedding): on success, every nested
location that is neither on nor under any written path reads exactly as
in the base (only the keys at the chosen parameters' mapped paths — or
top-level names for unmapped parameters — are set), and when the
written paths do not interfere, each written path reads back exactly
the chosen value. -/
theorem apply_param_choice_frame_effect :
    (∀ (base choice : List (String × CfgVal))
      (mapping : List (String × List String)) (out : List (String × CfgVal)),
      apply_param_choice_to_config base choice mapping = some out →
      ∀ q : List String,
        (∀ kv ∈ choice, ¬ pathBelow (pathOfKey mapping kv.1) q ∧
          ¬ pathBelow q (pathOfKey mapping kv.1)) →
        getPathF out q = getPathF base q) ∧
    (∀ (base choice : List (String × CfgVal))
      (mapping : List (String × List String)) (out : List (String × CfgVal)),
      apply_param_choice_to_config base choice mapping = some out →
      choice.Pairwise (fun kv kv' =>
        ¬ pathBelow (pathOfKey mapping kv.1) (pathOfKey mapping kv'.1) ∧
        ¬ pathBelow (pathOfKey mapping kv'.1) (pathOfKey mapping kv.1)) →
      ∀ kv ∈ choice, getPathF out (pathOfKey mapping kv.1) = some kv.2) :=
  ⟨fun base choice mapping out h q hq => apply_frame_aux choice base out mapping h q hq,
   fun base choice mapping out h hpw => apply_effect_aux choice base out mapping h hpw⟩

/-- Witness instantiating `apply_param_choice_frame_effect`: parameter
`k` mapped to path `b.d` is written into a config that lacks `b`, and
reads back as the chosen value. -/
theorem apply_param_choice_frame_effect_witness :
    getPathF [("a", CfgVal.leaf 1), ("b", CfgVal.node [("d", CfgVal.leaf 9)])]
      (pathOfKey [("k", ["b", "d"])] "k") = some (CfgVal.leaf 9) :=
  apply_param_choice_frame_effect.2 [("a", CfgVal.leaf 1)]
    [("k", CfgVal.leaf 9)] [("k", ["b", "d"])]
    [("a", CfgVal.leaf 1), ("b", CfgVal.node [("d", CfgVal.leaf 9)])]
    rfl (List.pairwise_singleton _ _) ("k", CfgVal.leaf 9)
    (List.mem_singleton.2 rfl)

end Braingraph
